import Mathlib

/-!
Verification development for the markityper unified stream scanner
(src/index.mjs).  JavaScript strings are embedded as `List Char`
(one element per UTF-16 code unit; the grapheme segmenter is modelled
by its code-unit fallback, which consumes exactly one unit per display
token, matching the `i += g.length` cursor arithmetic at that
granularity).  The module-level generator is embedded as an explicit
one-token step function `step` over a scanner state, iterated by
`scanFuel`; `createUnifiedStreamSync` runs it with enough fuel for the
whole input.  The start-of-line test `pos == 0 || src[pos-1] === '\n'`
is threaded through the state as the boolean `sol`: it is `true`
initially (position 0) and after a step it holds exactly when the last
consumed character is a newline, which is precisely `src[pos-1]`.
-/

namespace Markityper

/-- Token record of the stream: `type` is "syntax" or "display";
`kind` is "line" / "open" / "close" for syntax tokens and
"whitespace" / "default" for display tokens; `value` is the exact
substring consumed for this token. -/
structure Token where
  type : String
  kind : String
  value : List Char
deriving Repr, DecidableEq

/-- isWS from index.mjs: space, tab, newline, carriage return. -/
def isWS (c : Char) : Bool :=
  c == ' ' || c == '\t' || c == '\n' || c == '\r'

/-- readWS from index.mjs: length of the whitespace run starting at the
given position (here: at the head of the remaining input). -/
def readWS (src : List Char) : Nat :=
  (src.takeWhile isWS).length

/-- Result record of matchLineSyntax.  The JavaScript object carries
`value`, `len` (always `value.length`) and the optional flag `isFence`
(absent, hence falsy, for non-fence matches); `len` is therefore not
repeated here. -/
structure LineMatch where
  value : List Char
  isFence : Bool
deriving Repr, DecidableEq

/-- ATX heading branch of matchLineSyntax: `src.startsWith('#...#', i)
&& src[i+k] === ' '` is the same as the first k+1 characters being the
hashes plus a space. -/
def matchHeading (src : List Char) : Option LineMatch :=
  if src.take 7 = "###### ".data then some ⟨"###### ".data, false⟩
  else if src.take 6 = "##### ".data then some ⟨"##### ".data, false⟩
  else if src.take 5 = "#### ".data then some ⟨"#### ".data, false⟩
  else if src.take 4 = "### ".data then some ⟨"### ".data, false⟩
  else if src.take 3 = "## ".data then some ⟨"## ".data, false⟩
  else if src.take 2 = "# ".data then some ⟨"# ".data, false⟩
  else none

/-- Block-quote branch of matchLineSyntax: one or more '>' then a
space; the value is the run of '>' plus the space. -/
def matchQuote (src : List Char) : Option LineMatch :=
  if src.head? = some '>' then
    if src[(src.takeWhile (fun c => c == '>')).length]? = some ' ' then
      some ⟨src.take ((src.takeWhile (fun c => c == '>')).length + 1), false⟩
    else none
  else none

/-- Unordered-list branch of matchLineSyntax: '-', '+' or '*' followed
by a space. -/
def matchUnordered (src : List Char) : Option LineMatch :=
  match src with
  | c :: ' ' :: _ =>
    if c == '-' || c == '+' || c == '*' then some ⟨[c, ' '], false⟩ else none
  | _ => none

/-- Ordered-list branch of matchLineSyntax: digits, then '.' or ')',
then a space. -/
def matchOrdered (src : List Char) : Option LineMatch :=
  match src.head? with
  | some c =>
    if c.isDigit then
      match src[(src.takeWhile Char.isDigit).length]?,
          src[(src.takeWhile Char.isDigit).length + 1]? with
      | some d, some ' ' =>
        if d == '.' || d == ')' then
          some ⟨src.take ((src.takeWhile Char.isDigit).length + 2), false⟩
        else none
      | _, _ => none
    else none
  | none => none

/-- Fence branch of matchLineSyntax: a line starting with three
backticks; the value is the whole fence line including the optional
info string, plus the trailing newline when there is one. -/
def matchFence (src : List Char) : Option LineMatch :=
  if src.take 3 = "```".data then
    some ⟨"```".data ++ (src.drop 3).takeWhile (fun c => c != '\n') ++
      (if ((src.drop 3).dropWhile (fun c => c != '\n')).head? = some '\n'
       then ['\n'] else []), true⟩
  else none

/-- matchLineSyntax from index.mjs: the five branches are tried in
source order, each early `return` modelled by taking the first match. -/
def matchLineSyntax (src : List Char) : Option LineMatch :=
  match matchHeading src with
  | some m => some m
  | none =>
    match matchQuote src with
    | some m => some m
    | none =>
      match matchUnordered src with
      | some m => some m
      | none =>
        match matchOrdered src with
        | some m => some m
        | none => matchFence src

/-- `m.value.replace(/ $/, '')`: remove one trailing space if present. -/
def stripTrailingSpace (v : List Char) : List Char :=
  if v.getLast? = some ' ' then v.dropLast else v

/-- Scanner state of createUnifiedStreamSync: the unconsumed suffix of
the source, the start-of-line test for the current position, the inline
mark stack (top at the head; the JavaScript array pushes and pops at
the other end, which is observationally identical), and the fence
flag. -/
structure ScanState where
  rest : List Char
  sol : Bool
  stack : List String
  inFence : Bool
deriving Repr, DecidableEq

/-- Advance the cursor past the consumed characters `v` (every branch
of the loop consumes exactly the emitted value): the new remaining
input drops `v.length` units and the next start-of-line test holds
exactly when the last consumed character is a newline. -/
def consume (rest v : List Char) (stack : List String) (inFence : Bool) : ScanState :=
  ⟨rest.drop v.length, v.getLast? == some '\n', stack, inFence⟩

/-- Branch 1 of the scan loop: line syntax at start of line.  A fence
match toggles the fence flag; any other match is emitted only outside a
fence, with the trailing space optionally stripped. -/
def lineStep (includeSpace : Bool) (s : ScanState) : Option (Token × ScanState) :=
  if s.sol = true then
    match matchLineSyntax s.rest with
    | some m =>
      if m.isFence = true then
        some (⟨"syntax", "line", m.value⟩, consume s.rest m.value s.stack (!s.inFence))
      else if s.inFence = false then
        some (⟨"syntax", "line", if includeSpace then m.value else stripTrailingSpace m.value⟩,
          consume s.rest (if includeSpace then m.value else stripTrailingSpace m.value)
            s.stack s.inFence)
      else none
    | none => none
  else none

/-- The `<...>` span of the HTML branch: from '<' through the first '>'
of the tail (`src.indexOf('>', i + 1)`). -/
def tagSpan (ch : Char) (tl : List Char) : List Char :=
  (ch :: tl).take ((tl.takeWhile (fun c => c != '>')).length + 2)

/-- One iteration of the while-loop of createUnifiedStreamSync: yields
the emitted token and the successor state, or `none` at end of input.
The branch order is the source order: line syntax, fenced-code display,
HTML tags, inline marks, whitespace clumping, single grapheme.  The
JavaScript `if (!inInlineCode) ... else ...` around the mark branches
is flattened into the guard `s.stack.head? ≠ some "code"` on each. -/
def step (includeSpace : Bool) (s : ScanState) : Option (Token × ScanState) :=
  match s.rest with
  | [] => none
  | ch :: tl =>
    match lineStep includeSpace s with
    | some r => some r
    | none =>
      if s.inFence = true then
        if isWS ch then
          some (⟨"display", "whitespace", (ch :: tl).take (readWS (ch :: tl))⟩,
            consume (ch :: tl) ((ch :: tl).take (readWS (ch :: tl))) s.stack s.inFence)
        else
          some (⟨"display", "default", [ch]⟩, consume (ch :: tl) [ch] s.stack s.inFence)
      else if s.stack.head? ≠ some "code" ∧ ch = '<' ∧ tl.contains '>' = true then
        some (⟨"syntax", if (tagSpan ch tl).take 2 = "</".data then "close" else "open",
            tagSpan ch tl⟩,
          consume (ch :: tl) (tagSpan ch tl) s.stack s.inFence)
      else if s.stack.head? ≠ some "code" ∧ ch = '*' ∧ tl.head? = some '*' then
        if s.stack.head? = some "strong" then
          some (⟨"syntax", "close", ['*', '*']⟩,
            consume (ch :: tl) ['*', '*'] s.stack.tail s.inFence)
        else
          some (⟨"syntax", "open", ['*', '*']⟩,
            consume (ch :: tl) ['*', '*'] ("strong" :: s.stack) s.inFence)
      else if s.stack.head? ≠ some "code" ∧ ch = '*' then
        if s.stack.head? = some "em" then
          some (⟨"syntax", "close", ['*']⟩, consume (ch :: tl) ['*'] s.stack.tail s.inFence)
        else
          some (⟨"syntax", "open", ['*']⟩, consume (ch :: tl) ['*'] ("em" :: s.stack) s.inFence)
      else if s.stack.head? ≠ some "code" ∧ ch = '_' then
        if s.stack.head? = some "underline" then
          some (⟨"syntax", "close", ['_']⟩, consume (ch :: tl) ['_'] s.stack.tail s.inFence)
        else
          some (⟨"syntax", "open", ['_']⟩,
            consume (ch :: tl) ['_'] ("underline" :: s.stack) s.inFence)
      else if s.stack.head? ≠ some "code" ∧ ch = '`' then
        if s.stack.head? = some "code" then
          some (⟨"syntax", "close", ['`']⟩, consume (ch :: tl) ['`'] s.stack.tail s.inFence)
        else
          some (⟨"syntax", "open", ['`']⟩, consume (ch :: tl) ['`'] ("code" :: s.stack) s.inFence)
      else if s.stack.head? = some "code" ∧ ch = '`' then
        some (⟨"syntax", "close", ['`']⟩, consume (ch :: tl) ['`'] s.stack.tail s.inFence)
      else if isWS ch then
        some (⟨"display", "whitespace", (ch :: tl).take (readWS (ch :: tl))⟩,
          consume (ch :: tl) ((ch :: tl).take (readWS (ch :: tl))) s.stack s.inFence)
      else
        some (⟨"display", "default", [ch]⟩, consume (ch :: tl) [ch] s.stack s.inFence)

/-- Iterate `step`; the fuel bounds the number of emitted tokens and is
chosen large enough (the input length) that the scan always runs to end
of input, since every step consumes at least one character. -/
def scanFuel (includeSpace : Bool) : Nat → ScanState → List Token
  | 0, _ => []
  | n + 1, s =>
    match step includeSpace s with
    | none => []
    | some (t, s') => t :: scanFuel includeSpace n s'

/-- Options record: `includeTrailingSpaceInLineSyntax` defaults to
true; unrecognized options are ignored by the code and so do not
appear in the model. -/
structure Options where
  includeTrailingSpaceInLineSyntax : Bool := true
deriving Repr, DecidableEq

/-- Initial scanner state: cursor 0 (which is at start of line), empty
mark stack, fence flag false. -/
def initState (src : List Char) : ScanState :=
  ⟨src, true, [], false⟩

/-- createUnifiedStreamSync from index.mjs: the full emitted token
sequence for a source and options. -/
def createUnifiedStreamSync (src : List Char) (opts : Options) : List Token :=
  scanFuel opts.includeTrailingSpaceInLineSyntax src.length (initState src)

/-- createUnifiedStream from index.mjs: the exported async wrapper
yields exactly the tokens of createUnifiedStreamSync, unchanged. -/
def createUnifiedStream (src : List Char) (opts : Options) : List Token :=
  createUnifiedStreamSync src opts

/-- Concatenation of the emitted values, in emission order. -/
def joinValues (ts : List Token) : List Char :=
  ts.foldr (fun t acc => t.value ++ acc) []

/-- JavaScript whitespace, as used by String.prototype.trim and by the
regex class \s. -/
def isJsSpace (c : Char) : Bool :=
  c == ' ' || c == '\t' || c == '\n' || c == '\r' || c == '\x0b' || c == '\x0c' ||
  c == '\u00A0' || c == '\u1680' ||
  (decide ('\u2000' ≤ c) && decide (c ≤ '\u200A')) ||
  c == '\u2028' || c == '\u2029' || c == '\u202F' || c == '\u205F' ||
  c == '\u3000' || c == '\uFEFF'

/-- String.prototype.trim: drop leading and trailing whitespace. -/
def jsTrim (s : List Char) : List Char :=
  ((s.dropWhile isJsSpace).reverse.dropWhile isJsSpace).reverse

/-- The regex character class [a-zA-Z0-9:-] of toClosingTag. -/
def isTagNameChar (c : Char) : Bool :=
  c.isAlpha || c.isDigit || c == ':' || c == '-'

/-- toClosingTag from index.mjs, on the string branch of the `typeof`
test.  `startsWith`/`endsWith` are expressed on the character list
(`take 1`, `getLast?`, `take 2`, `reverse.take 2`), and the regex
`^<\s*([a-zA-Z0-9:-]+)` as: skip JavaScript whitespace after '<', then
take one or more tag-name characters, failing when there are none. -/
def toClosingTag (opening : List Char) : List Char :=
  let s := jsTrim opening
  if ¬ (s.take 1 = "<".data ∧ s.getLast? = some '>') then []
  else if s.take 2 = "</".data ∨ s.reverse.take 2 = ">/".data then []
  else
    let tag := ((s.drop 1).dropWhile isJsSpace).takeWhile isTagNameChar
    if tag = [] then [] else "</".data ++ tag ++ ">".data

/-- Splitting a list at a known prefix: the drop of the prefix length is
the remaining suffix. -/
theorem append_drop_of_eq {v t l : List Char} (h : v ++ t = l) :
    l = v ++ l.drop v.length ∧ l.drop v.length = t := by
  subst h
  rw [List.drop_left]
  exact ⟨rfl, rfl⟩

/-- Taking a known-length prefix splits the list. -/
theorem take_eq_append_drop {l v : List Char} {n : Nat} (h : l.take n = v)
    (hn : v.length = n) : l = v ++ l.drop v.length := by
  rw [hn, ← h, List.take_append_drop]

/-- Taking as many elements as `takeWhile` keeps gives `takeWhile`. -/
theorem take_len_takeWhile (p : Char → Bool) (l : List Char) :
    l.take ((l.takeWhile p).length) = l.takeWhile p := by
  have h := List.takeWhile_append_dropWhile p l
  calc l.take ((l.takeWhile p).length)
      = (l.takeWhile p ++ l.dropWhile p).take ((l.takeWhile p).length) := by rw [h]
    _ = l.takeWhile p := List.take_left _ _

/-- Dropping as many elements as `takeWhile` keeps gives `dropWhile`. -/
theorem drop_len_takeWhile (p : Char → Bool) (l : List Char) :
    l.drop ((l.takeWhile p).length) = l.dropWhile p := by
  have h := List.takeWhile_append_dropWhile p l
  calc l.drop ((l.takeWhile p).length)
      = (l.takeWhile p ++ l.dropWhile p).drop ((l.takeWhile p).length) := by rw [h]
    _ = l.dropWhile p := List.drop_left _ _

/-- Every element kept by `takeWhile` satisfies the predicate. -/
theorem mem_takeWhile_pred {p : Char → Bool} {l : List Char} {c : Char}
    (h : c ∈ l.takeWhile p) : p c = true := by
  induction l with
  | nil => simp [List.takeWhile] at h
  | cons a t ih =>
    rw [List.takeWhile_cons] at h
    cases hp : p a with
    | true =>
      simp only [hp, if_true, List.mem_cons] at h
      rcases h with h1 | h2
      · exact h1 ▸ hp
      · exact ih h2
    | false => simp [hp] at h

/-- The head of `dropWhile`, when present, fails the predicate. -/
theorem head_dropWhile_pred_false {p : Char → Bool} {l : List Char} {c : Char}
    (h : (l.dropWhile p).head? = some c) : p c = false := by
  simpa [h] using List.head?_dropWhile_not p l

/-- matchHeading: a match never reports a fence, its value is a
nonempty marker ending in a space and free of newlines, and the value
is the consumed prefix of the input. -/
theorem matchHeading_spec {l : List Char} {m : LineMatch}
    (h : matchHeading l = some m) :
    m.isFence = false ∧ l = m.value ++ l.drop m.value.length ∧
      ∃ pre, m.value = pre ++ [' '] ∧ pre ≠ [] ∧ '\n' ∉ m.value := by
  unfold matchHeading at h
  split at h
  · rename_i hc
    rw [Option.some.injEq] at h
    subst h
    exact ⟨rfl, take_eq_append_drop hc (by decide),
      "######".data, by decide, by decide, by decide⟩
  · split at h
    · rename_i hc
      rw [Option.some.injEq] at h
      subst h
      exact ⟨rfl, take_eq_append_drop hc (by decide),
        "#####".data, by decide, by decide, by decide⟩
    · split at h
      · rename_i hc
        rw [Option.some.injEq] at h
        subst h
        exact ⟨rfl, take_eq_append_drop hc (by decide),
          "####".data, by decide, by decide, by decide⟩
      · split at h
        · rename_i hc
          rw [Option.some.injEq] at h
          subst h
          exact ⟨rfl, take_eq_append_drop hc (by decide),
            "###".data, by decide, by decide, by decide⟩
        · split at h
          · rename_i hc
            rw [Option.some.injEq] at h
            subst h
            exact ⟨rfl, take_eq_append_drop hc (by decide),
              "##".data, by decide, by decide, by decide⟩
          · split at h
            · rename_i hc
              rw [Option.some.injEq] at h
              subst h
              exact ⟨rfl, take_eq_append_drop hc (by decide),
                "#".data, by decide, by decide, by decide⟩
            · exact absurd h (by simp)

/-- matchQuote: same shape of guarantees as matchHeading. -/
theorem matchQuote_spec {l : List Char} {m : LineMatch}
    (h : matchQuote l = some m) :
    m.isFence = false ∧ l = m.value ++ l.drop m.value.length ∧
      ∃ pre, m.value = pre ++ [' '] ∧ pre ≠ [] ∧ '\n' ∉ m.value := by
  unfold matchQuote at h
  split at h
  · rename_i hhead
    split at h
    · rename_i hsp
      rw [Option.some.injEq] at h
      subst h
      obtain ⟨hj, -⟩ := List.getElem?_eq_some_iff.mp hsp
      refine ⟨rfl, ?_, l.take ((l.takeWhile (fun c => c == '>')).length), ?_, ?_, ?_⟩
      · refine take_eq_append_drop rfl ?_
        rw [List.length_take]
        omega
      · rw [List.take_succ, hsp]
        rfl
      · obtain ⟨t, rfl⟩ := List.head?_eq_some_iff.mp hhead
        rw [take_len_takeWhile]
        simp [List.takeWhile_cons]
      · intro hmem
        rw [List.take_succ, hsp] at hmem
        rcases List.mem_append.mp hmem with h1 | h2
        · rw [take_len_takeWhile] at h1
          have := mem_takeWhile_pred h1
          simp at this
        · simp at h2
    · exact absurd h (by simp)
  · exact absurd h (by simp)

/-- matchUnordered: same shape of guarantees as matchHeading. -/
theorem matchUnordered_spec {l : List Char} {m : LineMatch}
    (h : matchUnordered l = some m) :
    m.isFence = false ∧ l = m.value ++ l.drop m.value.length ∧
      ∃ pre, m.value = pre ++ [' '] ∧ pre ≠ [] ∧ '\n' ∉ m.value := by
  unfold matchUnordered at h
  split at h
  · rename_i t c hshape
    split at h
    · rename_i hc
      rw [Option.some.injEq] at h
      subst h
      refine ⟨rfl, rfl, [c], rfl, by simp, ?_⟩
      intro hmem
      rcases List.mem_cons.mp hmem with h1 | h2
      · subst h1
        simp at hc
      · simp at h2
    · exact absurd h (by simp)
  · exact absurd h (by simp)

/-- matchOrdered: same shape of guarantees as matchHeading. -/
theorem matchOrdered_spec {l : List Char} {m : LineMatch}
    (h : matchOrdered l = some m) :
    m.isFence = false ∧ l = m.value ++ l.drop m.value.length ∧
      ∃ pre, m.value = pre ++ [' '] ∧ pre ≠ [] ∧ '\n' ∉ m.value := by
  unfold matchOrdered at h
  split at h
  · rename_i c hhead
    split at h
    · rename_i hdig
      split at h
      · rename_i d hd hsp
        split at h
        · rename_i hdelim
          rw [Option.some.injEq] at h
          subst h
          obtain ⟨hj1, -⟩ := List.getElem?_eq_some_iff.mp hsp
          refine ⟨rfl, ?_, l.take ((l.takeWhile Char.isDigit).length + 1), ?_, ?_, ?_⟩
          · refine take_eq_append_drop rfl ?_
            rw [List.length_take]
            omega
          · rw [show (l.takeWhile Char.isDigit).length + 2 =
                ((l.takeWhile Char.isDigit).length + 1) + 1 from rfl,
              List.take_succ, hsp]
            rfl
          · have hne : l ≠ [] := by
              intro he
              rw [he] at hhead
              simp at hhead
            cases l with
            | nil => exact absurd rfl hne
            | cons a t => simp
          · intro hmem
            rw [show (l.takeWhile Char.isDigit).length + 2 =
                ((l.takeWhile Char.isDigit).length + 1) + 1 from rfl,
              List.take_succ, hsp, List.take_succ, hd] at hmem
            rcases List.mem_append.mp hmem with h1 | h2
            · rcases List.mem_append.mp h1 with h3 | h4
              · rw [take_len_takeWhile] at h3
                have := mem_takeWhile_pred h3
                simp [Char.isDigit] at this
              · have : '\n' = d := by simpa using h4
                subst this
                simp at hdelim
            · simp at h2
        · exact absurd h (by simp)
      · exact absurd h (by simp)
    · exact absurd h (by simp)
  · exact absurd h (by simp)

/-- matchFence: the reported value is the consumed prefix of the input
and is nonempty; the match is flagged as a fence. -/
theorem matchFence_spec {l : List Char} {m : LineMatch}
    (h : matchFence l = some m) :
    m.isFence = true ∧ m.value ≠ [] ∧ l = m.value ++ l.drop m.value.length := by
  unfold matchFence at h
  split at h
  · rename_i hc
    rw [Option.some.injEq] at h
    subst h
    refine ⟨rfl, by simp, ?_⟩
    have hsplit : l = "```".data ++ l.drop 3 := take_eq_append_drop hc (by decide)
    have htkdw := List.takeWhile_append_dropWhile (fun c => c != '\n') (l.drop 3)
    split
    · rename_i hnl
      obtain ⟨t, hdw⟩ := List.head?_eq_some_iff.mp hnl
      have : ("```".data ++ (l.drop 3).takeWhile (fun c => c != '\n') ++ ['\n']) ++ t = l := by
        conv_rhs => rw [hsplit, ← htkdw, hdw]
        simp
      exact (append_drop_of_eq this).1
    · rename_i hnl
      have hdwnil : (l.drop 3).dropWhile (fun c => c != '\n') = [] := by
        cases hdw : (l.drop 3).dropWhile (fun c => c != '\n') with
        | nil => rfl
        | cons a t =>
          have ha := @head_dropWhile_pred_false (fun c => c != '\n') (l.drop 3) a
            (by rw [hdw]; rfl)
          simp at ha
          subst ha
          rw [hdw] at hnl
          simp at hnl
      have : ("```".data ++ (l.drop 3).takeWhile (fun c => c != '\n') ++ []) ++ [] = l := by
        conv_rhs => rw [hsplit, ← htkdw, hdwnil]
        simp
      exact (append_drop_of_eq this).1
  · exact absurd h (by simp)

/-- matchLineSyntax: the matched value is a nonempty consumed prefix of
the input, and a non-fence match is a newline-free marker ending in a
single space. -/
theorem matchLineSyntax_spec {l : List Char} {m : LineMatch}
    (h : matchLineSyntax l = some m) :
    m.value ≠ [] ∧ l = m.value ++ l.drop m.value.length ∧
      (m.isFence = false → ∃ pre, m.value = pre ++ [' '] ∧ pre ≠ [] ∧ '\n' ∉ m.value) := by
  unfold matchLineSyntax at h
  split at h
  · rename_i m1 h1
    rw [Option.some.injEq] at h
    subst h
    obtain ⟨-, hcons, pre, hval, hpre, hnl⟩ := matchHeading_spec h1
    exact ⟨by rw [hval]; simp, hcons, fun _ => ⟨pre, hval, hpre, hnl⟩⟩
  · split at h
    · rename_i m1 h1
      rw [Option.some.injEq] at h
      subst h
      obtain ⟨-, hcons, pre, hval, hpre, hnl⟩ := matchQuote_spec h1
      exact ⟨by rw [hval]; simp, hcons, fun _ => ⟨pre, hval, hpre, hnl⟩⟩
    · split at h
      · rename_i m1 h1
        rw [Option.some.injEq] at h
        subst h
        obtain ⟨-, hcons, pre, hval, hpre, hnl⟩ := matchUnordered_spec h1
        exact ⟨by rw [hval]; simp, hcons, fun _ => ⟨pre, hval, hpre, hnl⟩⟩
      · split at h
        · rename_i m1 h1
          rw [Option.some.injEq] at h
          subst h
          obtain ⟨-, hcons, pre, hval, hpre, hnl⟩ := matchOrdered_spec h1
          exact ⟨by rw [hval]; simp, hcons, fun _ => ⟨pre, hval, hpre, hnl⟩⟩
        · obtain ⟨hf, hne, hcons⟩ := matchFence_spec h
          exact ⟨hne, hcons, fun hff => absurd (hf.symm.trans hff) (by decide)⟩

/-- Stripping the trailing space of a marker that ends in one. -/
theorem strip_concat_space (pre : List Char) :
    stripTrailingSpace (pre ++ [' ']) = pre := by
  unfold stripTrailingSpace
  rw [List.getLast?_concat]
  simp

/-- Dropping as many elements as a `take` returned is dropping the
requested count. -/
theorem drop_length_take (n : Nat) (l : List Char) :
    l.drop ((l.take n).length) = l.drop n := by
  rw [List.length_take]
  rcases Nat.le_total n l.length with h | h
  · rw [Nat.min_eq_left h]
  · rw [Nat.min_eq_right h, List.drop_eq_nil_of_le (Nat.le_refl _),
      List.drop_eq_nil_of_le h]

/-- A list splits as any `take` prefix plus the drop of that prefix's
actual length. -/
theorem take_append_drop_length (n : Nat) (l : List Char) :
    l = l.take n ++ l.drop ((l.take n).length) := by
  rw [drop_length_take, List.take_append_drop]

/-- Branch 1 of the loop consumes exactly the emitted nonempty value. -/
theorem lineStep_consumes {b : Bool} {s : ScanState} {t : Token} {s' : ScanState}
    (h : lineStep b s = some (t, s')) :
    t.value ≠ [] ∧ s.rest = t.value ++ s'.rest := by
  unfold lineStep at h
  split at h
  · split at h
    · rename_i m hm
      obtain ⟨hne, hcons, hsp⟩ := matchLineSyntax_spec hm
      split at h
      · rw [Option.some.injEq, Prod.mk.injEq] at h
        obtain ⟨ht, hs'⟩ := h
        subst ht
        subst hs'
        exact ⟨hne, hcons⟩
      · split at h
        · rename_i hnf hout
          obtain ⟨pre, hval, hpre, -⟩ := hsp (by simpa using hnf)
          rw [Option.some.injEq, Prod.mk.injEq] at h
          obtain ⟨ht, hs'⟩ := h
          subst ht
          subst hs'
          cases b with
          | true =>
            rw [if_pos rfl]
            exact ⟨hne, hcons⟩
          | false =>
            rw [if_neg (by simp)]
            rw [hval, strip_concat_space]
            refine ⟨hpre, ?_⟩
            have heq2 : pre ++ (' ' :: s.rest.drop m.value.length) = s.rest := by
              conv_rhs => rw [hcons, hval]
              rw [hval]
              simp
            exact (append_drop_of_eq heq2).1
        · exact absurd h (by simp)
    · exact absurd h (by simp)
  · exact absurd h (by simp)

/-- Every loop iteration consumes exactly the emitted nonempty value:
the remaining input before the step is the token value followed by the
remaining input after the step. -/
theorem step_consumes {b : Bool} {s : ScanState} {t : Token} {s' : ScanState}
    (h : step b s = some (t, s')) :
    t.value ≠ [] ∧ s.rest = t.value ++ s'.rest := by
  unfold step at h
  split at h
  · exact absurd h (by simp)
  · rename_i ch tl hrest
    split at h
    · rename_i r hline
      rw [Option.some.injEq] at h
      subst h
      exact lineStep_consumes hline
    · rw [hrest]
      split at h
      · split at h
        · rename_i hfence hws
          rw [Option.some.injEq, Prod.mk.injEq] at h
          obtain ⟨ht, hs'⟩ := h
          subst ht
          subst hs'
          constructor
          · rw [readWS, take_len_takeWhile, List.takeWhile_cons, if_pos hws]
            simp
          · exact take_append_drop_length _ _
        · rw [Option.some.injEq, Prod.mk.injEq] at h
          obtain ⟨ht, hs'⟩ := h
          subst ht
          subst hs'
          exact ⟨by simp, rfl⟩
      · split at h
        · rw [Option.some.injEq, Prod.mk.injEq] at h
          obtain ⟨ht, hs'⟩ := h
          subst ht
          subst hs'
          constructor
          · simp [tagSpan]
          · exact take_append_drop_length _ _
        · split at h
          · rename_i hcond
            obtain ⟨-, hch, hnext⟩ := hcond
            subst hch
            obtain ⟨tl2, htl⟩ := List.head?_eq_some_iff.mp hnext
            subst htl
            split at h <;>
              (rw [Option.some.injEq, Prod.mk.injEq] at h
               obtain ⟨ht, hs'⟩ := h
               subst ht
               subst hs'
               exact ⟨by simp, rfl⟩)
          · split at h
            · rename_i hcond
              obtain ⟨-, hch⟩ := hcond
              subst hch
              split at h <;>
                (rw [Option.some.injEq, Prod.mk.injEq] at h
                 obtain ⟨ht, hs'⟩ := h
                 subst ht
                 subst hs'
                 exact ⟨by simp, rfl⟩)
            · split at h
              · rename_i hcond
                obtain ⟨-, hch⟩ := hcond
                subst hch
                split at h <;>
                  (rw [Option.some.injEq, Prod.mk.injEq] at h
                   obtain ⟨ht, hs'⟩ := h
                   subst ht
                   subst hs'
                   exact ⟨by simp, rfl⟩)
              · split at h
                · rename_i hcond
                  obtain ⟨-, hch⟩ := hcond
                  subst hch
                  split at h <;>
                    (rw [Option.some.injEq, Prod.mk.injEq] at h
                     obtain ⟨ht, hs'⟩ := h
                     subst ht
                     subst hs'
                     exact ⟨by simp, rfl⟩)
                · split at h
                  · rename_i hcond
                    obtain ⟨-, hch⟩ := hcond
                    subst hch
                    rw [Option.some.injEq, Prod.mk.injEq] at h
                    obtain ⟨ht, hs'⟩ := h
                    subst ht
                    subst hs'
                    exact ⟨by simp, rfl⟩
                  · split at h
                    · rename_i hws
                      rw [Option.some.injEq, Prod.mk.injEq] at h
                      obtain ⟨ht, hs'⟩ := h
                      subst ht
                      subst hs'
                      constructor
                      · rw [readWS, take_len_takeWhile, List.takeWhile_cons, if_pos hws]
                        simp
                      · exact take_append_drop_length _ _
                    · rw [Option.some.injEq, Prod.mk.injEq] at h
                      obtain ⟨ht, hs'⟩ := h
                      subst ht
                      subst hs'
                      exact ⟨by simp, rfl⟩

/-- The loop only stops at end of input: a `none` step means the
remaining input was empty. -/
theorem rest_nil_of_step_none {b : Bool} {s : ScanState}
    (h : step b s = none) : s.rest = [] := by
  unfold step at h
  split at h
  · assumption
  · split at h
    · exact absurd h (by simp)
    · repeat' split at h
      all_goals simp at h

/-- With enough fuel, the emitted values concatenate to exactly the
remaining input. -/
theorem scanFuel_join {b : Bool} {n : Nat} {s : ScanState}
    (h : s.rest.length ≤ n) : joinValues (scanFuel b n s) = s.rest := by
  induction n generalizing s with
  | zero =>
    have h0 : s.rest = [] := List.eq_nil_of_length_eq_zero (Nat.le_zero.mp h)
    simp [scanFuel, joinValues, h0]
  | succ n ih =>
    cases hstep : step b s with
    | none =>
      have h0 : s.rest = [] := rest_nil_of_step_none hstep
      simp [scanFuel, hstep, joinValues, h0]
    | some r =>
      obtain ⟨t, s'⟩ := r
      obtain ⟨hne, hcons⟩ := step_consumes hstep
      have hlen : s'.rest.length ≤ n := by
        have h1 : s.rest.length = t.value.length + s'.rest.length := by
          rw [hcons, List.length_append]
        have h2 : 0 < t.value.length := List.length_pos.mpr hne
        omega
      simp only [scanFuel, hstep]
      show t.value ++ joinValues (scanFuel b n s') = s.rest
      rw [ih hlen]
      exact hcons.symm

/-- The number of emitted tokens is bounded by the fuel. -/
theorem scanFuel_length_le {b : Bool} {n : Nat} {s : ScanState} :
    (scanFuel b n s).length ≤ n := by
  induction n generalizing s with
  | zero => simp [scanFuel]
  | succ n ih =>
    cases hstep : step b s with
    | none => simp [scanFuel, hstep]
    | some r =>
      obtain ⟨t, s'⟩ := r
      simp only [scanFuel, hstep, List.length_cons]
      exact Nat.succ_le_succ ih

/-- Every emitted token has a nonempty value. -/
theorem scanFuel_values_nonempty {b : Bool} {n : Nat} {s : ScanState} {t : Token}
    (hmem : t ∈ scanFuel b n s) : t.value ≠ [] := by
  induction n generalizing s with
  | zero => simp [scanFuel] at hmem
  | succ n ih =>
    cases hstep : step b s with
    | none => simp [scanFuel, hstep] at hmem
    | some r =>
      obtain ⟨t', s'⟩ := r
      simp only [scanFuel, hstep, List.mem_cons] at hmem
      rcases hmem with h1 | h2
      · subst h1
        exact (step_consumes hstep).1
      · exact ih h2

/-- C1.  Round-trip fidelity: for every input string and every options
value, concatenating the `value` fields of all tokens emitted by
createUnifiedStream, in emission order, equals the input string
exactly. -/
theorem c1_roundtrip (src : List Char) (opts : Options) :
    joinValues (createUnifiedStream src opts) = src := by
  unfold createUnifiedStream createUnifiedStreamSync initState
  exact scanFuel_join (Nat.le_refl _)

/-- C4.  Progress and termination: every emitted token has a nonempty
value, the scan of a finite input emits at most one token per input
unit (hence finitely many), and each scanning step strictly shrinks the
remaining input (the cursor strictly increases). -/
theorem c4_progress_termination (src : List Char) (opts : Options) {b : Bool}
    {s : ScanState} {t : Token} {s' : ScanState} (h : step b s = some (t, s')) :
    ((createUnifiedStreamSync src opts).all (fun tk => !tk.value.isEmpty)) = true ∧
      (createUnifiedStreamSync src opts).length ≤ src.length ∧
      t.value ≠ [] ∧ s'.rest.length < s.rest.length := by
  obtain ⟨hne, hcons⟩ := step_consumes h
  refine ⟨List.all_eq_true.mpr fun tk hmem => ?_, scanFuel_length_le, hne, ?_⟩
  · have hv := scanFuel_values_nonempty hmem
    cases hval : tk.value with
    | nil => exact absurd hval hv
    | cons a l => simp [hval, List.isEmpty]
  · rw [hcons, List.length_append]
    have := List.length_pos.mpr hne
    omega

/-- Witness for c4_progress_termination at a concrete input and step. -/
theorem c4_progress_termination_witness :
    ((createUnifiedStreamSync "x".data ⟨true⟩).all (fun tk => !tk.value.isEmpty)) = true ∧
      (createUnifiedStreamSync "x".data ⟨true⟩).length ≤ "x".data.length ∧
      (Token.mk "display" "default" ['x']).value ≠ [] ∧
      (ScanState.mk [] false [] false).rest.length <
        (ScanState.mk ['x'] true [] false).rest.length :=
  @c4_progress_termination "x".data ⟨true⟩ true ⟨['x'], true, [], false⟩
    ⟨"display", "default", ['x']⟩ ⟨[], false, [], false⟩ (by decide)

/-- C2.  toClosingTag evaluated at the documented inputs.  The code
returns the empty string for an input that is already a closing tag,
contradicting the claim (and the function's own doc comment, which
promises `'</div>' -> '</div>' (unchanged)`); the opening-tag and
self-closing cases behave as documented. -/
theorem c2_toClosingTag_eval :
    toClosingTag "</div>".data = [] ∧
      toClosingTag "<div class=\"x\">".data = "</div>".data ∧
      toClosingTag "<br/>".data = [] ∧
      toClosingTag "<ul>".data = "</ul>".data := by decide

/-- C9.  End-to-end scenario: scanning "# Hi *x*" with default options
yields exactly the seven claimed tokens in order. -/
theorem c9_end_to_end :
    createUnifiedStreamSync "# Hi *x*".data ⟨true⟩ =
      [⟨"syntax", "line", "# ".data⟩,
       ⟨"display", "default", ['H']⟩,
       ⟨"display", "default", ['i']⟩,
       ⟨"display", "whitespace", [' ']⟩,
       ⟨"syntax", "open", ['*']⟩,
       ⟨"display", "default", ['x']⟩,
       ⟨"syntax", "close", ['*']⟩] := by decide

/-- A successful branch-1 step emits a `line` syntax token, and only at
start of line. -/
theorem lineStep_shape {b : Bool} {s : ScanState} {t : Token} {s' : ScanState}
    (h : lineStep b s = some (t, s')) :
    t.type = "syntax" ∧ t.kind = "line" ∧ s.sol = true := by
  unfold lineStep at h
  split at h
  · split at h
    · split at h
      · rw [Option.some.injEq, Prod.mk.injEq] at h
        obtain ⟨ht, -⟩ := h
        subst ht
        exact ⟨rfl, rfl, by assumption⟩
      · split at h
        · rw [Option.some.injEq, Prod.mk.injEq] at h
          obtain ⟨ht, -⟩ := h
          subst ht
          exact ⟨rfl, rfl, by assumption⟩
        · exact absurd h (by simp)
    · exact absurd h (by simp)
  · exact absurd h (by simp)

/-- A successful branch-1 step taken while the fence flag is set can
only be the fence-closing line token: it clears the flag. -/
theorem lineStep_inFence_true {b : Bool} {s : ScanState} {t : Token} {s' : ScanState}
    (hf : s.inFence = true) (h : lineStep b s = some (t, s')) :
    t.type = "syntax" ∧ t.kind = "line" ∧ s'.inFence = false := by
  unfold lineStep at h
  split at h
  · split at h
    · split at h
      · rw [Option.some.injEq, Prod.mk.injEq] at h
        obtain ⟨ht, hs'⟩ := h
        subst ht
        subst hs'
        refine ⟨rfl, rfl, ?_⟩
        show (!s.inFence) = false
        rw [hf]
        rfl
      · split at h
        · rename_i hnf hout
          rw [hout] at hf
          exact Bool.noConfusion hf
        · exact absurd h (by simp)
    · exact absurd h (by simp)
  · exact absurd h (by simp)

/-- C3.  Fence sanctity: while the fence flag is set, every emitted
token is display, except the fence-closing `line` token, which clears
the flag — no `open`, `close`, or non-fence `line` syntax token is ever
emitted inside a fenced region. -/
theorem c3_fence_sanctity {b : Bool} {s : ScanState} {t : Token} {s' : ScanState}
    (hf : s.inFence = true) (h : step b s = some (t, s')) :
    t.type = "display" ∨ (t.type = "syntax" ∧ t.kind = "line" ∧ s'.inFence = false) := by
  unfold step at h
  split at h
  · exact absurd h (by simp)
  · split at h
    · rename_i r hline
      rw [Option.some.injEq] at h
      subst h
      exact Or.inr (lineStep_inFence_true hf hline)
    · split at h
      · split at h <;>
          (rw [Option.some.injEq, Prod.mk.injEq] at h
           obtain ⟨ht, -⟩ := h
           subst ht
           exact Or.inl rfl)
      · rename_i hnf
        exact absurd hf hnf

/-- Witness for c3_fence_sanctity at a concrete in-fence step. -/
theorem c3_fence_sanctity_witness :
    (Token.mk "display" "default" ['a']).type = "display" ∨
      ((Token.mk "display" "default" ['a']).type = "syntax" ∧
       (Token.mk "display" "default" ['a']).kind = "line" ∧
       (ScanState.mk [] false [] true).inFence = false) :=
  @c3_fence_sanctity true ⟨['a'], false, [], true⟩ ⟨"display", "default", ['a']⟩
    ⟨[], false, [], true⟩ rfl (by decide)

/-- C5 counterexample: in the input "# x" the (unique) maximal
whitespace run — the single space at index 1 — is consumed inside the
`line` syntax token "# "; the scan emits no `whitespace` display token
at all, so the run does not appear as a whitespace token covering it. -/
theorem c5_counterexample :
    "# x".data.any isWS = true ∧
      ((createUnifiedStreamSync "# x".data ⟨true⟩).all
        (fun t => t.kind != "whitespace")) = true ∧
      createUnifiedStreamSync "# x".data ⟨true⟩ =
        [⟨"syntax", "line", "# ".data⟩, ⟨"display", "default", ['x']⟩] := by decide

/-- The whitespace-run value taken by the display branches is the
maximal whitespace run at the cursor. -/
theorem wsToken_clump {c : Char} {tl : List Char}
    (hws : isWS c = true) :
    (c :: tl).take (readWS (c :: tl)) = (c :: tl).takeWhile isWS ∧
      (c :: tl).take (readWS (c :: tl)) ≠ [] ∧
      (c :: tl).drop (((c :: tl).take (readWS (c :: tl))).length) =
        (c :: tl).dropWhile isWS := by
  refine ⟨by rw [readWS, take_len_takeWhile], ?_, ?_⟩
  · rw [readWS, take_len_takeWhile, List.takeWhile_cons, if_pos hws]
    simp
  · rw [drop_length_take, readWS, drop_len_takeWhile]

/-- A head that is not '#' defeats every heading branch. -/
theorem matchHeading_none_of_head {c : Char} {tl : List Char} (h : c ≠ '#') :
    matchHeading (c :: tl) = none := by
  simp +decide [matchHeading, h,
    show "###### ".data = ['#', '#', '#', '#', '#', '#', ' '] from rfl,
    show "##### ".data = ['#', '#', '#', '#', '#', ' '] from rfl,
    show "#### ".data = ['#', '#', '#', '#', ' '] from rfl,
    show "### ".data = ['#', '#', '#', ' '] from rfl,
    show "## ".data = ['#', '#', ' '] from rfl,
    show "# ".data = ['#', ' '] from rfl]

/-- A head that is not '>' defeats the block-quote branch. -/
theorem matchQuote_none_of_head {c : Char} {tl : List Char} (h : c ≠ '>') :
    matchQuote (c :: tl) = none := by
  simp [matchQuote, h]

/-- A head that is none of '-', '+', '*' defeats the unordered branch. -/
theorem matchUnordered_none_of_head {c : Char} {tl : List Char}
    (hm : c ≠ '-') (hp : c ≠ '+') (ha : c ≠ '*') :
    matchUnordered (c :: tl) = none := by
  unfold matchUnordered
  split
  · rename_i c1 t heq
    injection heq with e1 e2
    subst e1
    simp [hm, hp, ha]
  · rfl

/-- A non-digit head defeats the ordered-list branch. -/
theorem matchOrdered_none_of_head {c : Char} {tl : List Char} (h : c.isDigit = false) :
    matchOrdered (c :: tl) = none := by
  simp [matchOrdered, h]

/-- A head that is not a backtick defeats the fence branch. -/
theorem matchFence_none_of_head {c : Char} {tl : List Char} (h : c ≠ '`') :
    matchFence (c :: tl) = none := by
  unfold matchFence
  rw [if_neg]
  intro hcontra
  rw [show ("```".data : List Char) = ['`', '`', '`'] from rfl] at hcontra
  have ht : (c :: tl).take 3 = c :: tl.take 2 := rfl
  rw [ht] at hcontra
  injection hcontra with hc htail
  exact h hc

/-- A head that starts no line-syntax branch gives no match at all. -/
theorem matchLineSyntax_none_of_head {c : Char} {tl : List Char}
    (h1 : c ≠ '#') (h2 : c ≠ '>') (h3 : c ≠ '-') (h4 : c ≠ '+') (h5 : c ≠ '*')
    (h6 : c.isDigit = false) (h7 : c ≠ '`') :
    matchLineSyntax (c :: tl) = none := by
  simp only [matchLineSyntax, matchHeading_none_of_head h1, matchQuote_none_of_head h2,
    matchUnordered_none_of_head h3 h4 h5, matchOrdered_none_of_head h6,
    matchFence_none_of_head h7]

/-- Branch 1 does nothing when the line-syntax matcher fails. -/
theorem lineStep_none_of_matcher {b : Bool} {s : ScanState}
    (h : matchLineSyntax s.rest = none) : lineStep b s = none := by
  unfold lineStep
  split
  · rw [h]
  · rfl

/-- A run of 1-6 hashes not followed by a space or another hash is not
a heading. -/
theorem matchHeading_none_hashes {k : Nat} {c : Char} {rest : List Char}
    (h1 : 1 ≤ k) (h2 : k ≤ 6) (h3 : c ≠ ' ') (h4 : c ≠ '#') :
    matchHeading (List.replicate k '#' ++ c :: rest) = none := by
  interval_cases k <;>
    simp +decide [matchHeading, List.replicate, h3, h4,
      show "###### ".data = ['#', '#', '#', '#', '#', '#', ' '] from rfl,
      show "##### ".data = ['#', '#', '#', '#', '#', ' '] from rfl,
      show "#### ".data = ['#', '#', '#', '#', ' '] from rfl,
      show "### ".data = ['#', '#', '#', ' '] from rfl,
      show "## ".data = ['#', '#', ' '] from rfl,
      show "# ".data = ['#', ' '] from rfl]

/-- A run of 1-6 hashes at end of input is not a heading. -/
theorem matchHeading_none_bare {k : Nat} (h1 : 1 ≤ k) (h2 : k ≤ 6) :
    matchHeading (List.replicate k '#') = none := by
  interval_cases k <;> decide

/-- A run of 1-6 hashes followed by a space is a heading whose value is
the hashes plus the space. -/
theorem matchHeading_hashes_space {k : Nat} {rest : List Char}
    (h1 : 1 ≤ k) (h2 : k ≤ 6) :
    matchHeading (List.replicate k '#' ++ ' ' :: rest) =
      some ⟨List.replicate k '#' ++ [' '], false⟩ := by
  interval_cases k <;>
    simp +decide [matchHeading, List.replicate,
      show "###### ".data = ['#', '#', '#', '#', '#', '#', ' '] from rfl,
      show "##### ".data = ['#', '#', '#', '#', '#', ' '] from rfl,
      show "#### ".data = ['#', '#', '#', '#', ' '] from rfl,
      show "### ".data = ['#', '#', '#', ' '] from rfl,
      show "## ".data = ['#', '#', ' '] from rfl,
      show "# ".data = ['#', ' '] from rfl]

/-- C6.  Heading requires trailing space: 1-6 hashes at start of line
not immediately followed by a space (next character different, or end
of input) produce no line-syntax match at all, and in particular
scanning "#Hello" emits no `line` token under either options value;
1-6 hashes followed by a space match as a heading whose value is the
hashes plus that space. -/
theorem c6_heading_space (k : Nat) (c : Char) (rest : List Char)
    (h1 : 1 ≤ k) (h2 : k ≤ 6) (h3 : c ≠ ' ') (h4 : c ≠ '#') :
    matchLineSyntax (List.replicate k '#' ++ c :: rest) = none ∧
      matchLineSyntax (List.replicate k '#') = none ∧
      matchLineSyntax (List.replicate k '#' ++ ' ' :: rest) =
        some ⟨List.replicate k '#' ++ [' '], false⟩ ∧
      ((createUnifiedStreamSync "#Hello".data ⟨true⟩).all
        (fun t => t.kind != "line")) = true ∧
      ((createUnifiedStreamSync "#Hello".data ⟨false⟩).all
        (fun t => t.kind != "line")) = true := by
  have hcons : ∃ tl : List Char, List.replicate k '#' ++ c :: rest = '#' :: tl := by
    cases k with
    | zero => exact absurd h1 (by omega)
    | succ n => exact ⟨List.replicate n '#' ++ c :: rest, by simp [List.replicate]⟩
  have hcons2 : ∃ tl : List Char, List.replicate k '#' = '#' :: tl := by
    cases k with
    | zero => exact absurd h1 (by omega)
    | succ n => exact ⟨List.replicate n '#', by simp [List.replicate]⟩
  have hcons3 : ∃ tl : List Char, List.replicate k '#' ++ ' ' :: rest = '#' :: tl := by
    cases k with
    | zero => exact absurd h1 (by omega)
    | succ n => exact ⟨List.replicate n '#' ++ ' ' :: rest, by simp [List.replicate]⟩
  refine ⟨?_, ?_, ?_, by decide, by decide⟩
  · obtain ⟨tl, htl⟩ := hcons
    have hH : matchHeading ('#' :: tl) = none :=
      htl ▸ matchHeading_none_hashes h1 h2 h3 h4
    rw [htl]
    simp only [matchLineSyntax, hH, @matchQuote_none_of_head '#' tl (by decide),
      @matchUnordered_none_of_head '#' tl (by decide) (by decide) (by decide),
      @matchOrdered_none_of_head '#' tl (by decide),
      @matchFence_none_of_head '#' tl (by decide)]
  · obtain ⟨tl, htl⟩ := hcons2
    have hH : matchHeading ('#' :: tl) = none :=
      htl ▸ matchHeading_none_bare h1 h2
    rw [htl]
    simp only [matchLineSyntax, hH, @matchQuote_none_of_head '#' tl (by decide),
      @matchUnordered_none_of_head '#' tl (by decide) (by decide) (by decide),
      @matchOrdered_none_of_head '#' tl (by decide),
      @matchFence_none_of_head '#' tl (by decide)]
  · obtain ⟨tl, htl⟩ := hcons3
    have hH := @matchHeading_hashes_space k rest h1 h2
    rw [htl] at hH ⊢
    simp only [matchLineSyntax, hH]

/-- Witness for c6_heading_space at its example "#Hello". -/
theorem c6_heading_space_witness :
    matchLineSyntax (List.replicate 1 '#' ++ 'H' :: "ello".data) = none ∧
      matchLineSyntax (List.replicate 1 '#') = none ∧
      matchLineSyntax (List.replicate 1 '#' ++ ' ' :: "ello".data) =
        some ⟨List.replicate 1 '#' ++ [' '], false⟩ ∧
      ((createUnifiedStreamSync "#Hello".data ⟨true⟩).all
        (fun t => t.kind != "line")) = true ∧
      ((createUnifiedStreamSync "#Hello".data ⟨false⟩).all
        (fun t => t.kind != "line")) = true :=
  c6_heading_space 1 'H' "ello".data (by decide) (by decide) (by decide) (by decide)

/-- C5 amended.  Whenever a `whitespace` display token is emitted, its
value is exactly the maximal whitespace run starting at the cursor:
nonempty, all whitespace, extending to the first non-whitespace
character, with the scan resuming right after the run — so a run is
never split across two display tokens.  (The counterexample shows the
part of the original claim this cannot extend to: runs consumed inside
`line` syntax tokens.) -/
theorem c5_whitespace_clump {b : Bool} {s : ScanState} {t : Token} {s' : ScanState}
    (h : step b s = some (t, s')) (hk : t.kind = "whitespace") :
    t.value = s.rest.takeWhile isWS ∧ t.value ≠ [] ∧ s'.rest = s.rest.dropWhile isWS := by
  unfold step at h
  split at h
  · exact absurd h (by simp)
  · rename_i ch tl hrest
    rw [hrest]
    split at h
    · rename_i r hline
      rw [Option.some.injEq] at h
      subst h
      have hkind := (lineStep_shape hline).2.1
      rw [hkind] at hk
      simp at hk
    · split at h
      · split at h
        · rename_i hfence hws
          rw [Option.some.injEq, Prod.mk.injEq] at h
          obtain ⟨ht, hs'⟩ := h
          subst ht
          subst hs'
          exact wsToken_clump hws
        · rw [Option.some.injEq, Prod.mk.injEq] at h
          obtain ⟨ht, -⟩ := h
          subst ht
          simp at hk
      · split at h
        · rw [Option.some.injEq, Prod.mk.injEq] at h
          obtain ⟨ht, -⟩ := h
          subst ht
          split at hk <;> simp at hk
        · split at h
          · split at h <;>
              (rw [Option.some.injEq, Prod.mk.injEq] at h
               obtain ⟨ht, -⟩ := h
               subst ht
               simp at hk)
          · split at h
            · split at h <;>
                (rw [Option.some.injEq, Prod.mk.injEq] at h
                 obtain ⟨ht, -⟩ := h
                 subst ht
                 simp at hk)
            · split at h
              · split at h <;>
                  (rw [Option.some.injEq, Prod.mk.injEq] at h
                   obtain ⟨ht, -⟩ := h
                   subst ht
                   simp at hk)
              · split at h
                · split at h <;>
                    (rw [Option.some.injEq, Prod.mk.injEq] at h
                     obtain ⟨ht, -⟩ := h
                     subst ht
                     simp at hk)
                · split at h
                  · rw [Option.some.injEq, Prod.mk.injEq] at h
                    obtain ⟨ht, -⟩ := h
                    subst ht
                    simp at hk
                  · split at h
                    · rename_i hws
                      rw [Option.some.injEq, Prod.mk.injEq] at h
                      obtain ⟨ht, hs'⟩ := h
                      subst ht
                      subst hs'
                      exact wsToken_clump hws
                    · rw [Option.some.injEq, Prod.mk.injEq] at h
                      obtain ⟨ht, -⟩ := h
                      subst ht
                      simp at hk

/-- Witness for c5_whitespace_clump at a concrete whitespace step. -/
theorem c5_whitespace_clump_witness :
    (Token.mk "display" "whitespace" [' ']).value = [' ', 'x'].takeWhile isWS ∧
      (Token.mk "display" "whitespace" [' ']).value ≠ [] ∧
      (ScanState.mk ['x'] false [] false).rest = [' ', 'x'].dropWhile isWS :=
  @c5_whitespace_clump true ⟨[' ', 'x'], false, [], false⟩
    ⟨"display", "whitespace", [' ']⟩ ⟨['x'], false, [], false⟩ (by decide) rfl

/-- The first '>' of a list that contains one splits it into the
newline-free prefix, the '>', and the tail after it. -/
theorem gt_split {tl : List Char} (h : tl.contains '>' = true) :
    tl.dropWhile (fun c => c != '>') =
        '>' :: (tl.dropWhile (fun c => c != '>')).tail ∧
      tl = tl.takeWhile (fun c => c != '>') ++
        '>' :: (tl.dropWhile (fun c => c != '>')).tail := by
  have hmem : '>' ∈ tl := by
    have h2 : tl.elem '>' = true := h
    exact List.elem_iff.mp h2
  have htd := List.takeWhile_append_dropWhile (fun c => c != '>') tl
  cases hdw : tl.dropWhile (fun c => c != '>') with
  | nil =>
    exfalso
    rw [hdw, List.append_nil] at htd
    rw [← htd] at hmem
    have := mem_takeWhile_pred hmem
    simp at this
  | cons a dr =>
    have ha := @head_dropWhile_pred_false (fun c => c != '>') tl a (by rw [hdw]; rfl)
    simp at ha
    subst ha
    refine ⟨rfl, ?_⟩
    rw [hdw] at htd
    exact htd.symm

/-- Taking one element past a known prefix. -/
theorem take_len_succ_of_decomp {tl pre dr : List Char} {c0 : Char}
    (hdecomp : tl = pre ++ c0 :: dr) :
    tl.take (pre.length + 1) = pre ++ [c0] := by
  rw [hdecomp]
  have h := @List.take_append _ pre (c0 :: dr) 1
  rw [h]
  simp

/-- Dropping one element past a known prefix. -/
theorem drop_len_succ_of_decomp {tl pre dr : List Char} {c0 : Char}
    (hdecomp : tl = pre ++ c0 :: dr) :
    tl.drop (pre.length + 1) = dr := by
  rw [hdecomp, show pre ++ c0 :: dr = (pre ++ [c0]) ++ dr by simp]
  exact List.drop_left' (by simp)

/-- Step evaluation: at a '<' outside fences and code spans, with a '>'
ahead, the step emits the whole tag span as one syntax token. -/
theorem step_html {b : Bool} {s : ScanState} {tl : List Char}
    (hrest : s.rest = '<' :: tl) (hnl : lineStep b s = none)
    (hnf : s.inFence = false) (hcode : s.stack.head? ≠ some "code")
    (hcont : tl.contains '>' = true) :
    step b s = some (⟨"syntax",
        if (tagSpan '<' tl).take 2 = "</".data then "close" else "open",
        tagSpan '<' tl⟩,
      consume ('<' :: tl) (tagSpan '<' tl) s.stack s.inFence) := by
  unfold step
  rw [hrest]
  dsimp only
  rw [hnl]
  dsimp only
  rw [if_neg (by rw [hnf]; exact (by decide)), if_pos ⟨hcode, rfl, hcont⟩]

/-- Step evaluation: branch 1 fires whenever the matcher does. -/
theorem step_of_lineStep {b : Bool} {s : ScanState} {ch : Char} {tl : List Char}
    {r : Token × ScanState} (hrest : s.rest = ch :: tl)
    (hl : lineStep b s = some r) : step b s = some r := by
  unfold step
  rw [hrest]
  dsimp only
  rw [hl]

/-- Branch 1 does nothing away from start of line. -/
theorem lineStep_none_of_sol {b : Bool} {s : ScanState}
    (h : s.sol = false) : lineStep b s = none := by
  unfold lineStep
  rw [if_neg (fun hx => by rw [h] at hx; exact Bool.noConfusion hx)]

/-- Branch 1 evaluation at start of line on a successful match, outside
a fence: the fence branch ignores the option, the other branches apply
it. -/
theorem lineStep_eval_some {b : Bool} {s : ScanState} {m : LineMatch}
    (hs : s.sol = true) (hm : matchLineSyntax s.rest = some m)
    (hf : s.inFence = false) :
    lineStep b s =
      if m.isFence = true then
        some (⟨"syntax", "line", m.value⟩, consume s.rest m.value s.stack (!s.inFence))
      else
        some (⟨"syntax", "line", if b then m.value else stripTrailingSpace m.value⟩,
          consume s.rest (if b then m.value else stripTrailingSpace m.value)
            s.stack s.inFence) := by
  unfold lineStep
  rw [if_pos hs, hm]
  dsimp only
  split
  · rfl
  · rfl

/-- Step evaluation: a '<' with no later '>' falls through to ordinary
display emission. -/
theorem step_display_lt {b : Bool} {s : ScanState} {tl : List Char}
    (hrest : s.rest = '<' :: tl) (hnl : lineStep b s = none)
    (hnf : s.inFence = false) (hncont : tl.contains '>' = false) :
    step b s = some (⟨"display", "default", ['<']⟩,
      consume ('<' :: tl) ['<'] s.stack s.inFence) := by
  unfold step
  rw [hrest]
  dsimp only
  rw [hnl]
  dsimp only
  rw [if_neg (by rw [hnf]; exact (by decide)),
    if_neg (fun hc => by rw [hncont] at hc; exact Bool.noConfusion hc.2.2),
    if_neg (fun hc => absurd hc.2.1 (by decide)),
    if_neg (fun hc => absurd hc.2 (by decide)),
    if_neg (fun hc => absurd hc.2 (by decide)),
    if_neg (fun hc => absurd hc.2 (by decide)),
    if_neg (fun hc => absurd hc.2 (by decide)),
    if_neg (by decide)]

/-- Step evaluation: at whitespace, away from start of line and outside
a fence, the clumped whitespace branch fires for any mark stack. -/
theorem step_ws {b : Bool} {s : ScanState} {c : Char} {tl : List Char}
    (hrest : s.rest = c :: tl) (hnl : lineStep b s = none)
    (hnf : s.inFence = false) (hws : isWS c = true) :
    step b s = some (⟨"display", "whitespace", (c :: tl).take (readWS (c :: tl))⟩,
      consume (c :: tl) ((c :: tl).take (readWS (c :: tl))) s.stack s.inFence) := by
  have hne : c ≠ '<' ∧ c ≠ '*' ∧ c ≠ '_' ∧ c ≠ '`' := by
    simp only [isWS, Bool.or_eq_true, beq_iff_eq] at hws
    rcases hws with ((rfl | rfl) | rfl) | rfl <;>
      exact ⟨by decide, by decide, by decide, by decide⟩
  unfold step
  rw [hrest]
  dsimp only
  rw [hnl]
  dsimp only
  rw [if_neg (by rw [hnf]; exact (by decide)),
    if_neg (fun hc2 => hne.1 hc2.2.1),
    if_neg (fun hc2 => hne.2.1 hc2.2.1),
    if_neg (fun hc2 => hne.2.1 hc2.2),
    if_neg (fun hc2 => hne.2.2.1 hc2.2),
    if_neg (fun hc2 => hne.2.2.2 hc2.2),
    if_neg (fun hc2 => hne.2.2.2 hc2.2),
    if_pos hws]

/-- C7.  HTML tag handling outside fenced code and outside an open
code-span: at a '<', when a '>' occurs later, the whole span from '<'
through that first '>' is emitted as one syntax token whose kind is
"close" exactly when the span starts with "</" (a self-closing tag is
"open"), and the scan resumes right after the '>'; when no '>' occurs,
the '<' is emitted as an ordinary display grapheme, not an error. -/
theorem c7_html_tags {b : Bool} {s : ScanState} {tl : List Char}
    (h1 : s.rest = '<' :: tl) (h2 : s.inFence = false)
    (h3 : s.stack.head? ≠ some "code") :
    (tl.contains '>' = true →
      ∃ s', step b s = some (⟨"syntax",
          if ('<' :: (tl.takeWhile (fun c => c != '>') ++ ['>'])).take 2 = "</".data
          then "close" else "open",
          '<' :: (tl.takeWhile (fun c => c != '>') ++ ['>'])⟩, s') ∧
        s'.rest = (tl.dropWhile (fun c => c != '>')).tail ∧
        s'.inFence = false) ∧
      (tl.contains '>' = false →
        ∃ s', step b s = some (⟨"display", "default", ['<']⟩, s') ∧
          s'.rest = tl ∧ s'.inFence = false) := by
  have hml : matchLineSyntax s.rest = none := by
    rw [h1]
    exact matchLineSyntax_none_of_head (by decide) (by decide) (by decide) (by decide)
      (by decide) (by decide) (by decide)
  have hnl : lineStep b s = none := lineStep_none_of_matcher hml
  constructor
  · intro hcont
    obtain ⟨hdw, hdecomp⟩ := gt_split hcont
    have hspan : tagSpan '<' tl = '<' :: (tl.takeWhile (fun c => c != '>') ++ ['>']) := by
      unfold tagSpan
      rw [show (tl.takeWhile (fun c => c != '>')).length + 2 =
          ((tl.takeWhile (fun c => c != '>')).length + 1) + 1 from rfl,
        List.take_succ_cons, take_len_succ_of_decomp hdecomp]
    refine ⟨consume ('<' :: tl) (tagSpan '<' tl) s.stack s.inFence, ?_, ?_, ?_⟩
    · rw [← hspan]
      exact step_html h1 hnl h2 h3 hcont
    · show ('<' :: tl).drop ((tagSpan '<' tl).length) = _
      rw [hspan, show ('<' :: (tl.takeWhile (fun c => c != '>') ++ ['>'])).length =
          ((tl.takeWhile (fun c => c != '>')).length + 1) + 1 by simp,
        List.drop_succ_cons]
      exact drop_len_succ_of_decomp hdecomp
    · exact h2
  · intro hncont
    exact ⟨consume ('<' :: tl) ['<'] s.stack s.inFence,
      step_display_lt h1 hnl h2 hncont, rfl, h2⟩

/-- Witness for c7_html_tags at the self-closing tag "<br/>x". -/
theorem c7_html_tags_witness :
    ("br/>x".data.contains '>' = true →
      ∃ s', step true ⟨'<' :: "br/>x".data, true, [], false⟩ = some (⟨"syntax",
          if ('<' :: ("br/>x".data.takeWhile (fun c => c != '>') ++ ['>'])).take 2 =
            "</".data
          then "close" else "open",
          '<' :: ("br/>x".data.takeWhile (fun c => c != '>') ++ ['>'])⟩, s') ∧
        s'.rest = ("br/>x".data.dropWhile (fun c => c != '>')).tail ∧
        s'.inFence = false) ∧
      ("br/>x".data.contains '>' = false →
        ∃ s', step true ⟨'<' :: "br/>x".data, true, [], false⟩ =
            some (⟨"display", "default", ['<']⟩, s') ∧
          s'.rest = "br/>x".data ∧ s'.inFence = false) :=
  @c7_html_tags true ⟨'<' :: "br/>x".data, true, [], false⟩ "br/>x".data
    rfl rfl (by decide)

/-- C10.  An open inline code-span does not suspend start-of-line
recognition: when the cursor is at start of line with "code" on top of
the mark stack (and outside a fence), a line-syntax match is still
emitted as a `line` syntax token — fence value verbatim, non-fence
value subject to the trailing-space option — and a fence-delimiter line
still sets the fence flag. -/
theorem c10_code_span_line {b : Bool} {s : ScanState} {m : LineMatch}
    (hs : s.sol = true) (hf : s.inFence = false)
    (hc : s.stack.head? = some "code") (hm : matchLineSyntax s.rest = some m) :
    ∃ s', step b s = some (⟨"syntax", "line",
        if m.isFence = true then m.value
        else if b then m.value else stripTrailingSpace m.value⟩, s') ∧
      (m.isFence = true → s'.inFence = true) := by
  obtain ⟨hne, hcons, -⟩ := matchLineSyntax_spec hm
  have hshape : ∃ ch tl, s.rest = ch :: tl := by
    cases hrest : s.rest with
    | nil =>
      rw [hrest] at hcons
      exact absurd ((List.append_eq_nil.mp hcons.symm).1) hne
    | cons a t => exact ⟨a, t, rfl⟩
  obtain ⟨ch, tl, hrest⟩ := hshape
  cases hfe : m.isFence with
  | true =>
    have hl : lineStep b s = some (⟨"syntax", "line", m.value⟩,
        consume s.rest m.value s.stack (!s.inFence)) := by
      rw [lineStep_eval_some hs hm hf, if_pos hfe]
    refine ⟨consume s.rest m.value s.stack (!s.inFence), ?_, fun _ => ?_⟩
    · rw [if_pos rfl]
      exact step_of_lineStep hrest hl
    · show (!s.inFence) = true
      rw [hf]
      rfl
  | false =>
    have hl : lineStep b s = some (⟨"syntax", "line",
        if b then m.value else stripTrailingSpace m.value⟩,
        consume s.rest (if b then m.value else stripTrailingSpace m.value)
          s.stack s.inFence) := by
      rw [lineStep_eval_some hs hm hf, if_neg (by rw [hfe]; exact (by decide))]
    refine ⟨consume s.rest (if b then m.value else stripTrailingSpace m.value)
      s.stack s.inFence, ?_, fun hcontra => Bool.noConfusion hcontra⟩
    rw [if_neg (by decide)]
    exact step_of_lineStep hrest hl

/-- Witness for c10_code_span_line: a fence line reached while an
inline code-span is open. -/
theorem c10_code_span_line_witness :
    ∃ s', step true ⟨"```".data, true, ["code"], false⟩ = some (⟨"syntax", "line",
        if (LineMatch.mk "```".data true).isFence = true
        then (LineMatch.mk "```".data true).value
        else if true then (LineMatch.mk "```".data true).value
          else stripTrailingSpace (LineMatch.mk "```".data true).value⟩, s') ∧
      ((LineMatch.mk "```".data true).isFence = true → s'.inFence = true) :=
  @c10_code_span_line true ⟨"```".data, true, ["code"], false⟩ ⟨"```".data, true⟩
    rfl rfl rfl (by decide)

/-- C8.  With includeTrailingSpaceInLineSyntax false, a non-fence line
match is emitted with its single trailing space stripped, the cursor
advances only by the stripped length (the space is the next remaining
character), and the following step emits that space at the head of a
`whitespace` display token; a fence match is unaffected by the
option. -/
theorem c8_option_strips_space {s : ScanState} {m : LineMatch}
    (hs : s.sol = true) (hf : s.inFence = false)
    (hm : matchLineSyntax s.rest = some m) :
    (m.isFence = false →
      ∃ s', step false s = some (⟨"syntax", "line", stripTrailingSpace m.value⟩, s') ∧
        s'.rest = s.rest.drop (stripTrailingSpace m.value).length ∧
        s'.rest.head? = some ' ' ∧
        ∃ t2 s'', step false s' = some (t2, s'') ∧ t2.type = "display" ∧
          t2.kind = "whitespace" ∧ t2.value.head? = some ' ') ∧
      (m.isFence = true → step false s = step true s) := by
  obtain ⟨hne, hcons, hsp⟩ := matchLineSyntax_spec hm
  have hshape : ∃ ch tl, s.rest = ch :: tl := by
    cases hrest : s.rest with
    | nil =>
      rw [hrest] at hcons
      exact absurd ((List.append_eq_nil.mp hcons.symm).1) hne
    | cons a t => exact ⟨a, t, rfl⟩
  obtain ⟨ch, tl, hrest⟩ := hshape
  constructor
  · intro hnf
    obtain ⟨pre, hval, hpre, hnl⟩ := hsp hnf
    have hstrip : stripTrailingSpace m.value = pre := by
      rw [hval]
      exact strip_concat_space pre
    have heq : pre ++ (' ' :: s.rest.drop m.value.length) = s.rest := by
      conv_rhs => rw [hcons, hval]
      rw [hval]
      simp
    have hdrop : s.rest.drop pre.length = ' ' :: s.rest.drop m.value.length :=
      (append_drop_of_eq heq).2
    have hl : lineStep false s = some (⟨"syntax", "line", stripTrailingSpace m.value⟩,
        consume s.rest (stripTrailingSpace m.value) s.stack s.inFence) := by
      rw [lineStep_eval_some hs hm hf, if_neg (by rw [hnf]; exact (by decide))]
      rfl
    refine ⟨consume s.rest (stripTrailingSpace m.value) s.stack s.inFence,
      step_of_lineStep hrest hl, rfl, ?_, ?_⟩
    · show (s.rest.drop (stripTrailingSpace m.value).length).head? = some ' '
      rw [hstrip, hdrop]
      rfl
    · have hrest2 : (consume s.rest (stripTrailingSpace m.value) s.stack
          s.inFence).rest = ' ' :: s.rest.drop m.value.length := by
        show s.rest.drop (stripTrailingSpace m.value).length = _
        rw [hstrip]
        exact hdrop
      have hsol2 : (consume s.rest (stripTrailingSpace m.value) s.stack
          s.inFence).sol = false := by
        show ((stripTrailingSpace m.value).getLast? == some '
') = false
        rw [hstrip]
        cases hgl : pre.getLast? with
        | none => rfl
        | some x =>
          have hx : x ≠ '
' := by
            intro hxe
            subst hxe
            exact hnl (hval ▸ List.mem_append.mpr
              (Or.inl (List.mem_of_getLast?_eq_some hgl)))
          simp [hx]
      have hnl2 : lineStep false (consume s.rest (stripTrailingSpace m.value)
          s.stack s.inFence) = none := lineStep_none_of_sol hsol2
      have hstep2 := step_ws hrest2 hnl2 hf (by decide)
      refine ⟨_, _, hstep2, rfl, rfl, ?_⟩
      rw [readWS, take_len_takeWhile, List.takeWhile_cons, if_pos (by decide)]
      rfl
  · intro hfe
    have h1 : lineStep false s = some (⟨"syntax", "line", m.value⟩,
        consume s.rest m.value s.stack (!s.inFence)) := by
      rw [lineStep_eval_some hs hm hf, if_pos hfe]
    have h2 : lineStep true s = some (⟨"syntax", "line", m.value⟩,
        consume s.rest m.value s.stack (!s.inFence)) := by
      rw [lineStep_eval_some hs hm hf, if_pos hfe]
    rw [step_of_lineStep hrest h1, step_of_lineStep hrest h2]

/-- Witness for c8_option_strips_space at the heading input "# x". -/
theorem c8_option_strips_space_witness :
    ((LineMatch.mk "# ".data false).isFence = false →
      ∃ s', step false ⟨"# x".data, true, [], false⟩ = some (⟨"syntax", "line",
          stripTrailingSpace (LineMatch.mk "# ".data false).value⟩, s') ∧
        s'.rest = "# x".data.drop
          (stripTrailingSpace (LineMatch.mk "# ".data false).value).length ∧
        s'.rest.head? = some ' ' ∧
        ∃ t2 s'', step false s' = some (t2, s'') ∧ t2.type = "display" ∧
          t2.kind = "whitespace" ∧ t2.value.head? = some ' ') ∧
      ((LineMatch.mk "# ".data false).isFence = true →
        step false ⟨"# x".data, true, [], false⟩ =
          step true ⟨"# x".data, true, [], false⟩) :=
  @c8_option_strips_space ⟨"# x".data, true, [], false⟩ ⟨"# ".data, false⟩
    rfl rfl (by decide)

end Markityper
